import Mathlib

/-!
Verification of `depend_filter.py` (dsme, `src/libiphb/depend_filter.py`),
a filter for compiler-generated makefile dependency lines.  The script is
embedded shallowly: Python strings become `String` (operated on through
their `List Char` data), the option-parsing loop becomes `parseArgs`, the
per-line loop becomes `emitLine`/`runLines`, and the whole process becomes
`pyRun` returning exit code, stdout and stderr.  An uncaught `IndexError`
(pop from an empty argument list) is modelled as `none`.
-/

namespace DependFilter

/-- Does list `p` occur as a leading segment of `s`?  Used to embed
Python's `startswith`, `endswith` and substring membership. -/
def listStarts : List Char → List Char → Bool
  | [], _ => true
  | _ :: _, [] => false
  | a :: as, b :: bs => a == b && listStarts as bs

/-- Python `s.startswith(p)`. -/
def strStarts (s p : String) : Bool := listStarts p.data s.data

/-- Python `s.endswith(suf)`. -/
def strEnds (s suf : String) : Bool := listStarts suf.data.reverse s.data.reverse

/-- Python `k in s` for strings: `k` occurs as a contiguous substring of `s`. -/
def pySubstr (k : List Char) : List Char → Bool
  | [] => listStarts k []
  | s@(_ :: rest) => listStarts k s || pySubstr k rest

/-- Python 2 `cmp` on natural numbers (the sign of the difference),
as `Ordering`. -/
def cmpNat (a b : Nat) : Ordering :=
  if a < b then .lt else if b < a then .gt else .eq

/-- Python 2 `cmp` on strings: lexicographic comparison of the character
sequences (byte order and code-point order agree on the ASCII paths the
tool handles). -/
def lexCmp : List Char → List Char → Ordering
  | [], [] => .eq
  | [], _ :: _ => .lt
  | _ :: _, [] => .gt
  | a :: as, b :: bs => (cmpNat a.toNat b.toNat).then (lexCmp as bs)

/-- `dep_compare(a, b)`: `cmp(a.count("/"), b.count("/")) or cmp(a, b)` —
compare by number of `/` characters, break ties lexically. -/
def dep_compare (a b : String) : Ordering :=
  (cmpNat (a.data.count '/') (b.data.count '/')).then (lexCmp a.data b.data)

/-- Ordered insertion with respect to a comparator: `x` goes in front of
the first element it does not compare `gt` against. -/
def insertCmp (c : String → String → Ordering) (x : String) : List String → List String
  | [] => [x]
  | y :: ys => if c x y = .gt then y :: insertCmp c x ys else x :: y :: ys

/-- Comparator sort (insertion sort).  `hdr.sort(dep_compare)` in the
script: since `dep_compare` is a total order whose `eq` happens only on
equal strings, the sorted arrangement of the (distinct) header keys is
unique, so any correct comparator sort — Python's or this one — produces
the same list. -/
def sortCmp (c : String → String → Ordering) : List String → List String
  | [] => []
  | x :: xs => insertCmp c x (sortCmp c xs)

/-- The body of `dep_filter`'s `for dep in deps` loop, with the `src` list
and the insertion-ordered `hdr` key list as accumulators:
sources (`.c` suffix) are appended to `src`, absolute paths (leading `/`)
are dropped, anything else is appended to `hdr` unless already present. -/
def dep_filter_loop (src hdr : List String) : List String → List String × List String
  | [] => (src, hdr)
  | dep :: rest =>
    if strEnds dep ".c" then dep_filter_loop (src ++ [dep]) hdr rest
    else if strStarts dep "/" then dep_filter_loop src hdr rest
    else if dep ∈ hdr then dep_filter_loop src hdr rest
    else dep_filter_loop src (hdr ++ [dep]) rest

/-- `dep_filter(deps)`: classify every token, then return the sources in
original order followed by the header keys sorted with `dep_compare`. -/
def dep_filter (deps : List String) : List String :=
  let p := dep_filter_loop [] [] deps
  p.1 ++ sortCmp dep_compare p.2

/- ### Spec-side definitions, used to state the refinement claims -/

/-- Spec-side: first-occurrence deduplication, carrying the set of strings
already seen. -/
def dedupSeen (seen : List String) : List String → List String
  | [] => []
  | x :: xs => if x ∈ seen then dedupSeen seen xs else x :: dedupSeen (x :: seen) xs

/-- Spec-side: deduplicate a list to one occurrence each (first one wins). -/
def dedupFirst (l : List String) : List String := dedupSeen [] l

/-- Spec-side comparator, following the spec's words: ascending by number
of `/` separators, ties broken by plain lexical order. -/
def specCmp (a b : String) : Ordering :=
  if a.data.count '/' < b.data.count '/' then .lt
  else if b.data.count '/' < a.data.count '/' then .gt
  else lexCmp a.data b.data

/- ### Option parsing -/

/-- Outcome of the argument loop going wrong: an unknown option (printed
and fatal), or `-d` with no attached value and no argument left to pop
(uncaught `IndexError` in the script). -/
inductive ParseErr where
  | unknown (a : String)
  | missingValue
deriving DecidableEq

/-- The `while args:` option loop.  Each argument `a` is split into
`k = a[:2]` and `v = a[2:]`; if `k in "-d"` (Python substring test) the
destination becomes `v or args.pop()`, otherwise the loop fails with the
unknown option. -/
def parseArgs : Option String → List String → Except ParseErr (Option String)
  | dest, [] => .ok dest
  | _, a :: rest =>
    let k := a.data.take 2
    let v := a.data.drop 2
    if pySubstr k "-d".data then
      if v = [] then
        match rest with
        | [] => .error .missingValue
        | x :: rest' => parseArgs (some x) rest'
      else parseArgs (some ⟨v⟩) rest
    else .error (.unknown a)

/- ### Per-line processing -/

/-- `os.path.basename` (posix): everything after the last `/`. -/
def pyBasename (s : String) : String :=
  ⟨(s.data.reverse.takeWhile (fun c => c != '/')).reverse⟩

/-- `os.path.join(a, b)` (posix, two arguments). -/
def pyJoin (a b : String) : String :=
  if strStarts b "/" then b
  else if a = "" || strEnds a "/" then a ++ b
  else a ++ "/" ++ b

/-- Target rewriting: `if DEST:` — with a truthy (non-`None`, non-empty)
destination the target becomes `os.path.join(DEST, os.path.basename(dest))`,
otherwise it is left alone. -/
def pyTarget (dest : Option String) (t : String) : String :=
  match dest with
  | none => t
  | some d => if d = "" then t else pyJoin d (pyBasename t)

/-- Python whitespace for `str.split()` with no argument. -/
def isSpace (c : Char) : Bool :=
  c == ' ' || c == '\t' || c == '\n' || c == '\r' || c == '\x0b' || c == '\x0c'

/-- Worker for `str.split()`: accumulate the current (reversed) token,
emit it at each whitespace run boundary. -/
def pySplitWsAux (cur : List Char) : List Char → List String
  | [] => if cur = [] then [] else [⟨cur.reverse⟩]
  | c :: rest =>
    if isSpace c then
      if cur = [] then pySplitWsAux [] rest
      else ⟨cur.reverse⟩ :: pySplitWsAux [] rest
    else pySplitWsAux (c :: cur) rest

/-- Python `srce.split()`: split on whitespace runs, no empty tokens. -/
def pySplitWs (l : List Char) : List String := pySplitWsAux [] l

/-- Worker for `split("\n")`: keeps empty pieces, like Python `str.split`
with an explicit separator. -/
def splitNlAux (cur : List Char) : List Char → List String
  | [] => [⟨cur.reverse⟩]
  | c :: rest =>
    if c == '\n' then ⟨cur.reverse⟩ :: splitNlAux [] rest
    else splitNlAux (c :: cur) rest

/-- `split("\n")` on the whole input. -/
def splitNl (l : List Char) : List String := splitNlAux [] l

/-- `replace("\\\n", " ")`: each backslash-newline pair becomes one space,
scanning left to right without overlap. -/
def replBsNl : List Char → List Char
  | [] => []
  | [c] => [c]
  | c1 :: c2 :: rest =>
    if c1 == '\\' && c2 == '\n' then ' ' :: replBsNl rest
    else c1 :: replBsNl (c2 :: rest)

/-- Everything before the first `:` of a line (`line.split(":", 1)[0]`). -/
def lineTarget (line : String) : String :=
  ⟨line.data.takeWhile (fun c => c != ':')⟩

/-- Everything after the first `:` of a line (`line.split(":", 1)[1]`). -/
def lineDeps (line : String) : List Char :=
  (line.data.dropWhile (fun c => c != ':')).drop 1

/-- The separator `" \\\n  "` placed between prerequisites by
`" \\\n  ".join(srce)`. -/
def joinSep : List String → String
  | [] => ""
  | [x] => x
  | x :: y :: rest => x ++ " \\\n  " ++ joinSep (y :: rest)

/-- One iteration of the `for line in ...` loop: a line without `:` is
skipped (`continue`), otherwise the target is rewritten per `pyTarget`,
the prerequisites are filtered, and
`print '%s: %s\n' % (dest, " \\\n  ".join(srce))` contributes the line
plus a terminating blank line. -/
def emitLine (dest : Option String) (line : String) : String :=
  if line.data.contains ':' then
    pyTarget dest (lineTarget line) ++ ": " ++
      joinSep (dep_filter (pySplitWs (lineDeps line))) ++ "\n\n"
  else ""

/-- The whole input loop: concatenation of each line's contribution. -/
def runLines (dest : Option String) : List String → String
  | [] => ""
  | l :: ls => emitLine dest l ++ runLines dest ls

/-- The whole process: parse `sys.argv[1:]`, then read stdin, join
continuation lines, split into lines and emit.  Result is
`(exit code, stdout, stderr)`; `none` models the uncaught `IndexError`
when `-d` has no value left to pop. -/
def pyRun (argv : List String) (input : String) : Option (Nat × String × String) :=
  match parseArgs none argv with
  | .error (.unknown a) => some (1, "", "Unknown option: " ++ a ++ "\n")
  | .error .missingValue => none
  | .ok dest => some (0, runLines dest (splitNl (replBsNl input.data)), "")

/-! ### Helper lemmas -/

/-- `dedupSeen` only looks at membership in `seen`, not at its arrangement. -/
theorem dedupSeen_congr (l : List String) : ∀ seen seen',
    (∀ y, y ∈ seen ↔ y ∈ seen') → dedupSeen seen l = dedupSeen seen' l := by
  induction l with
  | nil => intro _ _ _; rfl
  | cons x xs ih =>
    intro seen seen' h
    simp only [dedupSeen]
    by_cases hx : x ∈ seen
    · rw [if_pos hx, if_pos ((h x).mp hx)]
      exact ih seen seen' h
    · rw [if_neg hx, if_neg (fun c => hx ((h x).mpr c))]
      refine congrArg (x :: ·) (ih _ _ ?_)
      intro y
      simp only [List.mem_cons]
      exact or_congr Iff.rfl (h y)

/-- The classification loop, run from arbitrary accumulators, produces the
`.c`-suffixed tokens (in order) appended to `src` and the first occurrences
of the remaining non-absolute tokens appended to `hdr`. -/
theorem dep_filter_loop_eq (deps : List String) : ∀ src hdr,
    dep_filter_loop src hdr deps =
      (src ++ deps.filter (fun d => strEnds d ".c"),
       hdr ++ dedupSeen hdr
         (deps.filter (fun d => !strEnds d ".c" && !strStarts d "/"))) := by
  induction deps with
  | nil => intro src hdr; simp [dep_filter_loop, dedupSeen]
  | cons dep rest ih =>
    intro src hdr
    by_cases h1 : strEnds dep ".c" = true
    · simp only [dep_filter_loop, if_pos h1]
      rw [ih]
      simp [List.filter_cons, h1, List.append_assoc]
    · have h1' : strEnds dep ".c" = false := by
        cases hb : strEnds dep ".c" with
        | true => exact absurd hb h1
        | false => rfl
      by_cases h2 : strStarts dep "/" = true
      · simp only [dep_filter_loop, if_neg h1, if_pos h2]
        rw [ih]
        simp [List.filter_cons, h1', h2]
      · have h2' : strStarts dep "/" = false := by
          cases hb : strStarts dep "/" with
          | true => exact absurd hb h2
          | false => rfl
        by_cases h3 : dep ∈ hdr
        · simp only [dep_filter_loop, if_neg h1, if_neg h2, if_pos h3]
          rw [ih]
          simp [List.filter_cons, h1', h2', dedupSeen, h3]
        · simp only [dep_filter_loop, if_neg h1, if_neg h2, if_neg h3]
          rw [ih]
          rw [dedupSeen_congr _ (hdr ++ [dep]) (dep :: hdr)
            (by intro y; simp [or_comm])]
          simp [List.filter_cons, h1', h2', dedupSeen, h3, List.append_assoc]

/-- The script's comparator agrees pointwise with the spec's ordering
(separator count ascending, ties lexical). -/
theorem dep_compare_eq_specCmp (a b : String) : dep_compare a b = specCmp a b := by
  unfold dep_compare specCmp cmpNat
  rcases Nat.lt_trichotomy (a.data.count '/') (b.data.count '/') with h | h | h
  · rw [if_pos h, if_pos h]
    rfl
  · rw [if_neg (by omega), if_neg (by omega), if_neg (by omega), if_neg (by omega)]
    rfl
  · rw [if_neg (by omega), if_pos h, if_neg (by omega), if_pos h]
    rfl

/-- Ordered insertion only consults the comparator pointwise. -/
theorem insertCmp_congr (c c' : String → String → Ordering)
    (h : ∀ a b, c a b = c' a b) (x : String) :
    ∀ l, insertCmp c x l = insertCmp c' x l := by
  intro l
  induction l with
  | nil => rfl
  | cons y ys ih =>
    simp only [insertCmp, h x y, ih]

/-- Comparator sort only consults the comparator pointwise. -/
theorem sortCmp_congr (c c' : String → String → Ordering)
    (h : ∀ a b, c a b = c' a b) :
    ∀ l, sortCmp c l = sortCmp c' l := by
  intro l
  induction l with
  | nil => rfl
  | cons x xs ih =>
    simp only [sortCmp, ih, insertCmp_congr c c' h]

/-- Main refinement fact: `dep_filter` returns the `.c`-suffixed tokens in
their original order, followed by the remaining non-absolute tokens
deduplicated to their first occurrences and sorted by the spec ordering. -/
theorem dep_filter_eq (deps : List String) :
    dep_filter deps =
      deps.filter (fun d => strEnds d ".c") ++
        sortCmp specCmp
          (dedupFirst (deps.filter (fun d => !strEnds d ".c" && !strStarts d "/"))) := by
  unfold dep_filter dedupFirst
  rw [dep_filter_loop_eq]
  simp only [List.nil_append]
  rw [sortCmp_congr dep_compare specCmp dep_compare_eq_specCmp]

/-- Membership after ordered insertion. -/
theorem mem_insertCmp (c : String → String → Ordering) (x y : String) :
    ∀ l, y ∈ insertCmp c x l → y = x ∨ y ∈ l := by
  intro l
  induction l with
  | nil => intro h; exact Or.inl (by simpa [insertCmp] using h)
  | cons z zs ih =>
    simp only [insertCmp]
    by_cases hc : c x z = .gt
    · rw [if_pos hc]
      intro h
      rcases List.mem_cons.mp h with h | h
      · exact Or.inr (by simp [h])
      · rcases ih h with h | h
        · exact Or.inl h
        · exact Or.inr (List.mem_cons_of_mem _ h)
    · rw [if_neg hc]
      intro h
      simpa using List.mem_cons.mp h

/-- Membership in the sorted list implies membership in the original. -/
theorem mem_sortCmp (c : String → String → Ordering) (y : String) :
    ∀ l, y ∈ sortCmp c l → y ∈ l := by
  intro l
  induction l with
  | nil => intro h; simp [sortCmp] at h
  | cons x xs ih =>
    intro h
    rcases mem_insertCmp c x y _ h with h | h
    · simp [h]
    · exact List.mem_cons_of_mem _ (ih h)

/-- Membership in the deduplicated list implies membership in the original. -/
theorem mem_dedupSeen (y : String) : ∀ (l : List String) (seen : List String),
    y ∈ dedupSeen seen l → y ∈ l := by
  intro l
  induction l with
  | nil => intro seen h; simp [dedupSeen] at h
  | cons x xs ih =>
    intro seen h
    simp only [dedupSeen] at h
    by_cases hx : x ∈ seen
    · rw [if_pos hx] at h
      exact List.mem_cons_of_mem _ (ih seen h)
    · rw [if_neg hx] at h
      rcases List.mem_cons.mp h with h | h
      · simp [h]
      · exact List.mem_cons_of_mem _ (ih _ h)

/-- Replacing continuations distributes over an inserted backslash-newline:
the pair itself becomes one space and cannot merge with surrounding text
into a new match. -/
theorem replBsNl_append_bsnl (s t : List Char) :
    replBsNl (s ++ '\\' :: '\n' :: t) = replBsNl s ++ ' ' :: replBsNl t := by
  induction s using replBsNl.induct with
  | case1 => rfl
  | case2 c =>
    show replBsNl (c :: '\\' :: '\n' :: t) = c :: ' ' :: replBsNl t
    rw [replBsNl, show (('\\' : Char) == '\n') = false from rfl, Bool.and_false,
      if_neg (by simp), replBsNl,
      if_pos (show (('\\' : Char) == '\\' && ('\n' : Char) == '\n') = true from rfl)]
  | case3 c1 c2 rest hc ih =>
    simp only [List.cons_append]
    rw [replBsNl, if_pos hc, replBsNl, if_pos hc]
    simp only [List.cons_append, ih]
  | case4 c1 c2 rest hc ih =>
    simp only [List.cons_append]
    rw [replBsNl, if_neg hc, replBsNl, if_neg hc]
    simp only [List.cons_append] at ih
    rw [ih]
    rfl

/-- Replacing continuations likewise distributes over an inserted space. -/
theorem replBsNl_append_space (s t : List Char) :
    replBsNl (s ++ ' ' :: t) = replBsNl s ++ ' ' :: replBsNl t := by
  induction s using replBsNl.induct with
  | case1 =>
    show replBsNl (' ' :: t) = ' ' :: replBsNl t
    cases t with
    | nil => rfl
    | cons c rest =>
      rw [replBsNl, show ((' ' : Char) == '\\') = false from rfl, Bool.false_and,
        if_neg (by simp)]
  | case2 c =>
    show replBsNl (c :: ' ' :: t) = c :: ' ' :: replBsNl t
    rw [replBsNl, show ((' ' : Char) == '\n') = false from rfl, Bool.and_false,
      if_neg (by simp)]
    cases t with
    | nil => rfl
    | cons d rest =>
      rw [replBsNl, show ((' ' : Char) == '\\') = false from rfl, Bool.false_and,
        if_neg (by simp)]
  | case3 c1 c2 rest hc ih =>
    simp only [List.cons_append]
    rw [replBsNl, if_pos hc, replBsNl, if_pos hc]
    simp only [List.cons_append, ih]
  | case4 c1 c2 rest hc ih =>
    simp only [List.cons_append]
    rw [replBsNl, if_neg hc, replBsNl, if_neg hc]
    simp only [List.cons_append] at ih
    rw [ih]
    rfl

/-! ### Claim theorems -/

/-- C1: for every list of prerequisite tokens, `dep_filter` returns all
tokens ending in `.c` in their original relative order, followed by the
remaining non-absolute tokens deduplicated to one occurrence each and
sorted ascending by number of `/` separators, ties broken by plain
lexical order. -/
theorem dep_filter_sources_then_sorted_headers (deps : List String) :
    dep_filter deps =
      deps.filter (fun d => strEnds d ".c") ++
        sortCmp specCmp
          (dedupFirst (deps.filter (fun d => !strEnds d ".c" && !strStarts d "/"))) :=
  dep_filter_eq deps

/-- C2 counterexample: the token `/usr/x.c` begins with `/` yet appears in
the filtered output, because the `.c` suffix test runs first; so the claim
that no token beginning with `/` ever appears is false as stated. -/
theorem absolute_source_in_output_cex :
    strStarts "/usr/x.c" "/" = true ∧ "/usr/x.c" ∈ dep_filter ["/usr/x.c"] := by
  constructor
  · rfl
  · decide

/-- C2 (amended): no token that begins with `/` and does not end in `.c`
ever appears in the filtered output list. -/
theorem absolute_nonsource_never_in_output (deps : List String) (d : String)
    (habs : strStarts d "/" = true) (hnc : strEnds d ".c" = false) :
    d ∉ dep_filter deps := by
  intro hmem
  rw [dep_filter_eq] at hmem
  rcases List.mem_append.mp hmem with h | h
  · have hc := (List.mem_filter.mp h).2
    rw [hnc] at hc
    exact Bool.false_ne_true hc
  · have h2 := mem_dedupSeen d _ [] (mem_sortCmp _ d _ h)
    have h3 := (List.mem_filter.mp h2).2
    rw [habs] at h3
    simp at h3

/-- C3: a prerequisite that both begins with `/` and ends with `.c` is
classified as a source (it lands in the loop's `src` component) and is
retained verbatim in the output, because the `.c` suffix test is applied
before the absolute-path test. -/
theorem absolute_source_retained (deps : List String) (d : String)
    (hd : d ∈ deps) (hc : strEnds d ".c" = true) :
    d ∈ (dep_filter_loop [] [] deps).1 ∧ d ∈ dep_filter deps := by
  have hsrc : (dep_filter_loop [] [] deps).1 =
      deps.filter (fun d => strEnds d ".c") := by
    rw [dep_filter_loop_eq]
    simp
  constructor
  · rw [hsrc]
    exact List.mem_filter.mpr ⟨hd, hc⟩
  · rw [dep_filter_eq]
    exact List.mem_append_left _ (List.mem_filter.mpr ⟨hd, hc⟩)

/-- C4: an argument whose first two characters do not pass the `k in "-d"`
test makes the option loop fail with that argument; the whole run then
writes `Unknown option: <arg>` to stderr, exits with status 1, and
produces no stdout output. -/
theorem unknown_option_fatal (a : String)
    (h : pySubstr (a.data.take 2) "-d".data = false) :
    (∀ dest rest, parseArgs dest (a :: rest) = .error (.unknown a)) ∧
    (∀ (argv : List String) (input e : String),
      parseArgs none argv = .error (.unknown e) →
      pyRun argv input = some (1, "", "Unknown option: " ++ e ++ "\n")) := by
  constructor
  · intro dest rest
    rw [parseArgs.eq_def]
    simp only []
    rw [h]
    rfl
  · intro argv input e hp
    unfold pyRun
    rw [hp]

/-- C5: the arguments `-`, `d` and the empty string all pass the
`k in "-d"` substring test, so each is accepted as the destination option
and consumes the following argument as the destination value. -/
theorem lenient_option_accept (dest : Option String) (x : String)
    (rest : List String) :
    parseArgs dest ("-" :: x :: rest) = parseArgs (some x) rest ∧
    parseArgs dest ("d" :: x :: rest) = parseArgs (some x) rest ∧
    parseArgs dest ("" :: x :: rest) = parseArgs (some x) rest :=
  ⟨rfl, rfl, rfl⟩

/-- C6: on a line containing `:`, with a (truthy) destination directory
configured the emitted target is the destination joined with the basename
of the original target (the text before the first `:`); with none
configured the target passes through unmodified. -/
theorem target_rewrite (line d : String)
    (hcolon : line.data.contains ':' = true) (hd : d ≠ "") :
    (∃ rest, emitLine (some d) line =
      pyJoin d (pyBasename (lineTarget line)) ++ ": " ++ rest) ∧
    (∃ rest, emitLine none line = lineTarget line ++ ": " ++ rest) := by
  constructor
  · refine ⟨joinSep (dep_filter (pySplitWs (lineDeps line))) ++ "\n\n", ?_⟩
    unfold emitLine
    rw [if_pos hcolon]
    simp only [pyTarget]
    rw [if_neg hd, String.append_assoc]
  · refine ⟨joinSep (dep_filter (pySplitWs (lineDeps line))) ++ "\n\n", ?_⟩
    unfold emitLine
    rw [if_pos hcolon]
    simp only [pyTarget]
    rw [String.append_assoc]

/-- C7: on the single line `a.o: a.c /usr/include/stdio.h b.h a/c.h a.h`
with no destination option, the program emits target `a.o` followed by
the prerequisites in the exact order `a.c`, `a.h`, `b.h`, `a/c.h`. -/
theorem example_line_output :
    pyRun [] "a.o: a.c /usr/include/stdio.h b.h a/c.h a.h" =
      some (0, "a.o: a.c \\\n  a.h \\\n  b.h \\\n  a/c.h\n\n", "") ∧
    dep_filter ["a.c", "/usr/include/stdio.h", "b.h", "a/c.h", "a.h"] =
      ["a.c", "a.h", "b.h", "a/c.h"] := by
  constructor
  · decide
  · decide

/-- C8: a line without `:` contributes nothing to the output, and a run of
the line loop over lines all lacking `:` produces no output at all (and no
failure). -/
theorem no_colon_line_skipped (line : String)
    (h : line.data.contains ':' = false) :
    (∀ dest, emitLine dest line = "") ∧
    (∀ (dest : Option String) (ls : List String),
      (∀ l ∈ ls, l.data.contains ':' = false) → runLines dest ls = "") := by
  constructor
  · intro dest
    unfold emitLine
    rw [if_neg (by rw [h]; exact Bool.false_ne_true)]
  · intro dest ls
    induction ls with
    | nil => intro _; rfl
    | cons l ls ih =>
      intro hall
      show emitLine dest l ++ runLines dest ls = ""
      have h0 : l.data.contains ':' = false := hall l (List.mem_cons_self l ls)
      have h1 : emitLine dest l = "" := by
        unfold emitLine
        rw [if_neg (by rw [h0]; exact Bool.false_ne_true)]
      rw [h1, ih (fun l' hl' => hall l' (List.mem_cons_of_mem _ hl'))]
      rfl

/-- C9: each backslash-newline pair of the input becomes a single space
before line splitting, so a rule written across continuation lines is
parsed as one logical line: replacement distributes over an inserted
backslash-newline, and a whole run cannot distinguish a backslash-newline
from a space at the same position. -/
theorem continuation_joined (s t : List Char) :
    replBsNl (s ++ '\\' :: '\n' :: t) = replBsNl s ++ ' ' :: replBsNl t ∧
    ∀ argv : List String,
      pyRun argv ⟨s ++ '\\' :: '\n' :: t⟩ = pyRun argv ⟨s ++ ' ' :: t⟩ := by
  refine ⟨replBsNl_append_bsnl s t, ?_⟩
  intro argv
  unfold pyRun
  cases hp : parseArgs none argv with
  | error e => cases e <;> rfl
  | ok dest =>
    show some (0, runLines dest (splitNl (replBsNl (s ++ '\\' :: '\n' :: t))), "") =
      some (0, runLines dest (splitNl (replBsNl (s ++ ' ' :: t))), "")
    rw [replBsNl_append_bsnl, replBsNl_append_space]

/-- C10: on a line containing `:`, the emitted text is the (possibly
rewritten) target, then `": "`, then the filtered prerequisites joined by
the separator `" \\\n  "` (backslash, newline, two-space indent), and a
terminating blank line (the output ends with two newlines). -/
theorem output_format (dest : Option String) (line : String)
    (h : line.data.contains ':' = true) :
    emitLine dest line =
      pyTarget dest (lineTarget line) ++ ": " ++
        joinSep (dep_filter (pySplitWs (lineDeps line))) ++ "\n\n" := by
  unfold emitLine
  rw [if_pos h]

/-! ### Witnesses -/

/-- Witness for C2 (amended) at the concrete input `["x.c", "/a/b.h", "y.h"]`. -/
theorem absolute_nonsource_never_in_output_w :
    strStarts "/a/b.h" "/" = true ∧ strEnds "/a/b.h" ".c" = false ∧
    "/a/b.h" ∉ dep_filter ["x.c", "/a/b.h", "y.h"] :=
  ⟨by decide, by decide,
    absolute_nonsource_never_in_output ["x.c", "/a/b.h", "y.h"] "/a/b.h"
      (by decide) (by decide)⟩

/-- Witness for C3 at the concrete input `["a.h", "/usr/x.c"]`. -/
theorem absolute_source_retained_w :
    "/usr/x.c" ∈ ["a.h", "/usr/x.c"] ∧ strEnds "/usr/x.c" ".c" = true ∧
    ("/usr/x.c" ∈ (dep_filter_loop [] [] ["a.h", "/usr/x.c"]).1 ∧
      "/usr/x.c" ∈ dep_filter ["a.h", "/usr/x.c"]) :=
  ⟨by decide, by decide,
    absolute_source_retained ["a.h", "/usr/x.c"] "/usr/x.c" (by decide) (by decide)⟩

/-- Witness for C4 at the concrete argument `--verbose`. -/
theorem unknown_option_fatal_w :
    pySubstr ("--verbose".data.take 2) "-d".data = false ∧
    parseArgs none ["--verbose"] = .error (.unknown "--verbose") ∧
    pyRun ["--verbose"] "a.o: a.c" = some (1, "", "Unknown option: --verbose\n") :=
  ⟨by rfl, (unknown_option_fatal "--verbose" (by rfl)).1 none [],
    (unknown_option_fatal "--verbose" (by rfl)).2 ["--verbose"] "a.o: a.c" "--verbose"
      ((unknown_option_fatal "--verbose" (by rfl)).1 none [])⟩

/-- Witness for C6 at the spec's own example: `-d build/out` with target
`/abs/path/foo.o` yields `build/out/foo.o`. -/
theorem target_rewrite_w :
    ("/abs/path/foo.o: foo.c x.h".data.contains ':' = true) ∧
    ("build/out" ≠ "") ∧
    pyJoin "build/out" (pyBasename (lineTarget "/abs/path/foo.o: foo.c x.h")) =
      "build/out/foo.o" ∧
    (∃ rest, emitLine (some "build/out") "/abs/path/foo.o: foo.c x.h" =
      pyJoin "build/out" (pyBasename (lineTarget "/abs/path/foo.o: foo.c x.h")) ++
        ": " ++ rest) ∧
    (∃ rest, emitLine none "/abs/path/foo.o: foo.c x.h" =
      lineTarget "/abs/path/foo.o: foo.c x.h" ++ ": " ++ rest) :=
  ⟨by decide, by decide, by decide,
    (target_rewrite "/abs/path/foo.o: foo.c x.h" "build/out" (by decide) (by decide)).1,
    (target_rewrite "/abs/path/foo.o: foo.c x.h" "build/out" (by decide) (by decide)).2⟩

/-- Witness for C8 at the concrete line `just noise`. -/
theorem no_colon_line_skipped_w :
    ("just noise".data.contains ':' = false) ∧
    emitLine none "just noise" = "" ∧
    runLines none ["just noise", ""] = "" :=
  ⟨by decide, (no_colon_line_skipped "just noise" (by decide)).1 none,
    (no_colon_line_skipped "just noise" (by decide)).2 none ["just noise", ""]
      (by decide)⟩

/-- Witness for C10 at the concrete line `a.o: a.c b.h`. -/
theorem output_format_w :
    ("a.o: a.c b.h".data.contains ':' = true) ∧
    emitLine none "a.o: a.c b.h" =
      pyTarget none (lineTarget "a.o: a.c b.h") ++ ": " ++
        joinSep (dep_filter (pySplitWs (lineDeps "a.o: a.c b.h"))) ++ "\n\n" :=
  ⟨by decide, output_format none "a.o: a.c b.h" (by decide)⟩

end DependFilter
